import Mathlib

/-!
Verification of the bhavcopy repository: the date-chunk planner and fetcher of
`samco_bhavcopy.py` and the ticker-rename detector of `ticker_changes_bhav_copy.py`,
shallowly embedded in Lean 4.  Dates are modelled as year/month/day triples with a
rata-die ordinal `toOrd` used wherever Python compares `datetime` values (on valid
dates `datetime` comparison coincides with chronological, i.e. ordinal, order).
-/

namespace Bhav

/-- Gregorian calendar date, mirroring the fields of Python `datetime.date`. -/
structure Date where
  year : Nat
  month : Nat
  day : Nat
deriving DecidableEq, Repr

/-- Gregorian leap-year rule, as implemented by Python's `datetime`/`calendar`. -/
def isLeap (y : Nat) : Bool :=
  (y % 4 == 0 && y % 100 != 0) || y % 400 == 0

/-- Number of days in a month, as used by `datetime` date validation. -/
def daysInMonth (y m : Nat) : Nat :=
  if m = 2 then (if isLeap y then 29 else 28)
  else if m = 4 ∨ m = 6 ∨ m = 9 ∨ m = 11 then 30
  else 31

/-- The validity invariant `datetime.date` maintains (plus `MINYEAR = 1`). -/
def Date.Valid (d : Date) : Prop :=
  1 ≤ d.year ∧ 1 ≤ d.month ∧ d.month ≤ 12 ∧ 1 ≤ d.day ∧ d.day ≤ daysInMonth d.year d.month

instance (d : Date) : Decidable d.Valid := by
  unfold Date.Valid; infer_instance

/-- Sum of the lengths of months `1..n` of year `y`. -/
def monthsSum (y : Nat) : Nat → Nat
  | 0 => 0
  | n + 1 => monthsSum y n + daysInMonth y (n + 1)

/-- Days in all years strictly before year `y` (rata die year offset). -/
def daysBeforeYear (y : Nat) : Nat :=
  365 * (y - 1) + (y - 1) / 4 + (y - 1) / 400 - (y - 1) / 100

/-- Rata-die ordinal of a date; on valid dates this orders exactly like `datetime`. -/
def toOrd (d : Date) : Nat :=
  daysBeforeYear d.year + monthsSum d.year (d.month - 1) + d.day

/-- The calendar successor of a date (`datetime + timedelta(days=1)`). -/
def nextDay (d : Date) : Date :=
  if d.day < daysInMonth d.year d.month then ⟨d.year, d.month, d.day + 1⟩
  else if d.month < 12 then ⟨d.year, d.month + 1, 1⟩
  else ⟨d.year + 1, 1, 1⟩

/-- The calendar predecessor of a date (`datetime - timedelta(days=1)`). -/
def prevDay (d : Date) : Date :=
  if 1 < d.day then ⟨d.year, d.month, d.day - 1⟩
  else if 1 < d.month then ⟨d.year, d.month - 1, daysInMonth d.year (d.month - 1)⟩
  else ⟨d.year - 1, 12, 31⟩

theorem daysInMonth_ge : 28 ≤ daysInMonth y m := by
  unfold daysInMonth; split
  · split <;> omega
  · split <;> omega

theorem daysInMonth_le : daysInMonth y m ≤ 31 := by
  unfold daysInMonth; split
  · split <;> omega
  · split <;> omega

theorem monthsSum_full (y : Nat) :
    monthsSum y 12 = 365 + (if isLeap y then 1 else 0) := by
  by_cases h : isLeap y <;> simp [monthsSum, daysInMonth, h]

theorem daysBeforeYear_succ (y : Nat) (hy : 1 ≤ y) :
    daysBeforeYear (y + 1) = daysBeforeYear y + 365 + (if isLeap y then 1 else 0) := by
  obtain ⟨z, rfl⟩ : ∃ z, y = z + 1 := ⟨y - 1, by omega⟩
  unfold daysBeforeYear
  simp only [Nat.add_sub_cancel]
  have h4 : (z + 1) / 4 = z / 4 + if 4 ∣ z + 1 then 1 else 0 := Nat.succ_div z 4
  have h100 : (z + 1) / 100 = z / 100 + if 100 ∣ z + 1 then 1 else 0 := Nat.succ_div z 100
  have h400 : (z + 1) / 400 = z / 400 + if 400 ∣ z + 1 then 1 else 0 := Nat.succ_div z 400
  have hba : z / 100 ≤ z / 4 := Nat.div_le_div_left (by norm_num) (by norm_num)
  have hcb : z / 400 ≤ z / 100 := Nat.div_le_div_left (by norm_num) (by norm_num)
  have hl : isLeap (z + 1) = true ↔ ((z + 1) % 4 = 0 ∧ (z + 1) % 100 ≠ 0) ∨ (z + 1) % 400 = 0 := by
    simp [isLeap, Bool.or_eq_true, Bool.and_eq_true]
  have d4 : 4 ∣ z + 1 ↔ (z + 1) % 4 = 0 := Nat.dvd_iff_mod_eq_zero
  have d100 : 100 ∣ z + 1 ↔ (z + 1) % 100 = 0 := Nat.dvd_iff_mod_eq_zero
  have d400 : 400 ∣ z + 1 ↔ (z + 1) % 400 = 0 := Nat.dvd_iff_mod_eq_zero
  have i1 : (z + 1) % 100 = 0 → (z + 1) % 4 = 0 := by
    intro h; rcases d100.mpr h with ⟨k, hk⟩
    exact d4.mp ⟨25 * k, by omega⟩
  have i2 : (z + 1) % 400 = 0 → (z + 1) % 100 = 0 := by
    intro h; rcases d400.mpr h with ⟨k, hk⟩
    exact d100.mp ⟨4 * k, by omega⟩
  by_cases l : isLeap (z + 1) <;>
    by_cases c4 : (z + 1) % 4 = 0 <;>
    by_cases c100 : (z + 1) % 100 = 0 <;>
    by_cases c400 : (z + 1) % 400 = 0 <;>
    simp_all <;> omega

theorem monthsSum_succ (y n : Nat) :
    monthsSum y (n + 1) = monthsSum y n + daysInMonth y (n + 1) := rfl

theorem valid_mk {y m d : Nat} (h1 : 1 ≤ y) (h2 : 1 ≤ m) (h3 : m ≤ 12)
    (h4 : 1 ≤ d) (h5 : d ≤ daysInMonth y m) : (Date.mk y m d).Valid :=
  ⟨h1, h2, h3, h4, h5⟩

theorem nextDay_valid {d : Date} (h : d.Valid) : (nextDay d).Valid := by
  obtain ⟨hy, hm1, hm2, hd1, hd2⟩ := h
  unfold nextDay
  split
  · exact valid_mk hy hm1 hm2 (by omega) (by omega)
  · split
    · exact valid_mk hy (by omega) (by omega) (by omega)
        (by have := @daysInMonth_ge d.year (d.month + 1); omega)
    · exact valid_mk (by omega) (by omega) (by omega) (by omega)
        (by have := @daysInMonth_ge (d.year + 1) 1; omega)

theorem toOrd_nextDay {d : Date} (h : d.Valid) : toOrd (nextDay d) = toOrd d + 1 := by
  obtain ⟨hy, hm1, hm2, hd1, hd2⟩ := h
  unfold nextDay
  split
  · simp [toOrd]; omega
  · rename_i hday
    have hde : d.day = daysInMonth d.year d.month := by omega
    split
    · rename_i hmon
      have hm : d.month - 1 + 1 = d.month := by omega
      simp only [toOrd]
      have : monthsSum d.year (d.month + 1 - 1) =
          monthsSum d.year (d.month - 1) + daysInMonth d.year d.month := by
        have : d.month + 1 - 1 = (d.month - 1) + 1 := by omega
        rw [this, monthsSum_succ, hm]
      omega
    · rename_i hmon
      have hm12 : d.month = 12 := by omega
      have h12 : daysInMonth d.year 12 = 31 := by simp [daysInMonth]
      have h31 : d.day = 31 := by rw [hde, hm12, h12]
      have e1 : toOrd (Date.mk (d.year + 1) 1 1) = daysBeforeYear (d.year + 1) + 1 := by
        show daysBeforeYear (d.year + 1) + monthsSum (d.year + 1) 0 + 1 = _
        show daysBeforeYear (d.year + 1) + 0 + 1 = _
        omega
      have e2 : toOrd d = daysBeforeYear d.year + monthsSum d.year 11 + d.day := by
        unfold toOrd
        rw [hm12]
      have e3 : monthsSum d.year 12 = monthsSum d.year 11 + daysInMonth d.year 12 :=
        monthsSum_succ d.year 11
      have hby := daysBeforeYear_succ d.year hy
      have hms := monthsSum_full d.year
      rw [e1, e2]
      by_cases l : isLeap d.year <;> simp only [l, if_true, if_false] at hby hms <;> omega

/-! ### `datetime.strptime` for the formats `%Y-%m-%d` and `%Y%m%d`

CPython's `_strptime` compiles `%Y` to the regex `\d\d\d\d`, `%m` to
`1[0-2]|0[1-9]|[1-9]` and `%d` to `3[01]|[12]\d|0[1-9]|[1-9]`; the alternatives are
tried in this order with backtracking, the match is not anchored at the end, and
afterwards `strptime` raises `ValueError` if characters are left over.  The
resulting numbers are then validated by the `datetime` constructor.  The parsers
below mirror that: continuation-passing alternation implements the regex
backtracking, the leftover check is performed after the match, without further
backtracking, and `mkDatetime` performs the constructor's range checks. -/

def digitVal (c : Char) : Nat := c.toNat - 48

def isDigitCh (c : Char) : Bool := '0' ≤ c && c ≤ '9'

/-- `%Y`: exactly four digits. -/
def pYear : List Char → Option (Nat × List Char)
  | a :: b :: c :: d :: r =>
    if isDigitCh a && isDigitCh b && isDigitCh c && isDigitCh d then
      some (1000 * digitVal a + 100 * digitVal b + 10 * digitVal c + digitVal d, r)
    else none
  | _ => none

/-- `%m`: `1[0-2]|0[1-9]|[1-9]`, alternatives tried in order with backtracking
through the continuation `k`. -/
def pMonth (cs : List Char) (k : Nat → List Char → Option α) : Option α :=
  (match cs with
   | '1' :: c :: r => if '0' ≤ c && c ≤ '2' then k (10 + digitVal c) r else none
   | _ => none) <|>
  (match cs with
   | '0' :: c :: r => if '1' ≤ c && c ≤ '9' then k (digitVal c) r else none
   | _ => none) <|>
  (match cs with
   | c :: r => if '1' ≤ c && c ≤ '9' then k (digitVal c) r else none
   | _ => none)

/-- `%d`: `3[01]|[12]\d|0[1-9]|[1-9]`, alternatives tried in order. -/
def pDay (cs : List Char) (k : Nat → List Char → Option α) : Option α :=
  (match cs with
   | '3' :: c :: r => if c = '0' || c = '1' then k (30 + digitVal c) r else none
   | _ => none) <|>
  (match cs with
   | c :: d :: r =>
     if ('1' ≤ c && c ≤ '2') && isDigitCh d then k (10 * digitVal c + digitVal d) r else none
   | _ => none) <|>
  (match cs with
   | '0' :: c :: r => if '1' ≤ c && c ≤ '9' then k (digitVal c) r else none
   | _ => none) <|>
  (match cs with
   | c :: r => if '1' ≤ c && c ≤ '9' then k (digitVal c) r else none
   | _ => none)

/-- The `datetime(year, month, day)` constructor: range checks, else `ValueError`. -/
def mkDatetime (y m d : Nat) : Option Date :=
  if 1 ≤ y ∧ y ≤ 9999 ∧ 1 ≤ m ∧ m ≤ 12 ∧ 1 ≤ d ∧ d ≤ daysInMonth y m then
    some ⟨y, m, d⟩
  else none

/-- Regex match for `%Y-%m-%d` (literal dashes), returning leftover characters. -/
def matchYdashMd (cs : List Char) : Option (Nat × Nat × Nat × List Char) :=
  match pYear cs with
  | none => none
  | some (y, r1) =>
    match r1 with
    | '-' :: r2 =>
      pMonth r2 (fun m r3 =>
        match r3 with
        | '-' :: r4 => pDay r4 (fun d r5 => some (y, m, d, r5))
        | _ => none)
    | _ => none

/-- Regex match for `%Y%m%d`, returning leftover characters. -/
def matchYmd (cs : List Char) : Option (Nat × Nat × Nat × List Char) :=
  match pYear cs with
  | none => none
  | some (y, r1) => pMonth r1 (fun m r2 => pDay r2 (fun d r3 => some (y, m, d, r3)))

/-- `datetime.strptime(s, "%Y-%m-%d")`: `none` models the raised `ValueError`. -/
def strptimeIso (s : String) : Option Date :=
  match matchYdashMd s.data with
  | some (y, m, d, []) => mkDatetime y m d
  | _ => none

/-- `datetime.strptime(s, "%Y%m%d").date()`: `none` models the raised `ValueError`. -/
def strptimeYmd (s : String) : Option Date :=
  match matchYmd s.data with
  | some (y, m, d, []) => mkDatetime y m d
  | _ => none

theorem mkDatetime_valid {y m d : Nat} {dt : Date} (h : mkDatetime y m d = some dt) :
    dt.Valid := by
  unfold mkDatetime at h
  split at h
  · cases h
    next hc => exact ⟨hc.1, hc.2.2.1, hc.2.2.2.1, hc.2.2.2.2.1, hc.2.2.2.2.2⟩
  · cases h

theorem strptimeIso_valid {s : String} {dt : Date} (h : strptimeIso s = some dt) :
    dt.Valid := by
  unfold strptimeIso at h
  split at h
  · exact mkDatetime_valid h
  · cases h

/-! ### The DateChunkPlanner: `generate_15day_chunks` -/

/-- `min(a, b)` on `datetime` values (chronological comparison). -/
def minDate (a b : Date) : Date := if toOrd a ≤ toOrd b then a else b

/-- Last calendar day of `c`'s month, computed the way the source does:
first day of the next month minus one day. -/
def lastDayOfMonth (c : Date) : Date :=
  if c.month = 12 then prevDay ⟨c.year + 1, 1, 1⟩
  else prevDay ⟨c.year, c.month + 1, 1⟩

/-- One loop iteration's `chunk_end`: day 15 for the first half of the month,
the last day of the month otherwise, clipped to the overall end date. -/
def chunkEndOf (current endD : Date) : Date :=
  if current.day ≤ 15 then minDate ⟨current.year, current.month, 15⟩ endD
  else minDate (lastDayOfMonth current) endD

/-- The `while current <= end` loop of `generate_15day_chunks`, with explicit fuel
bounding the number of iterations (the loop advances `current` by at least one
day per iteration, so `toOrd end + 1 - toOrd start` iterations suffice). -/
def genChunksAux (endD : Date) : Nat → Date → List (Date × Date)
  | 0, _ => []
  | fuel + 1, current =>
    if toOrd current ≤ toOrd endD then
      let ce := chunkEndOf current endD
      (current, ce) :: genChunksAux endD fuel (nextDay ce)
    else []

/-- `generate_15day_chunks(start_date, end_date)`; `none` models the `ValueError`
raised by `strptime` on an unparsable input. -/
def generate_15day_chunks (start_date end_date : String) : Option (List (Date × Date)) :=
  match strptimeIso start_date, strptimeIso end_date with
  | some s, some e => some (genChunksAux e (toOrd e + 1 - toOrd s) s)
  | _, _ => none

theorem toOrd_minDate (a b : Date) : toOrd (minDate a b) = min (toOrd a) (toOrd b) := by
  unfold minDate; split <;> omega

theorem minDate_valid {a b : Date} (ha : a.Valid) (hb : b.Valid) : (minDate a b).Valid := by
  unfold minDate; split <;> assumption

theorem lastDayOfMonth_eq {d : Date} (h : d.Valid) :
    lastDayOfMonth d = ⟨d.year, d.month, daysInMonth d.year d.month⟩ := by
  obtain ⟨hy, hm1, hm2, hd1, hd2⟩ := h
  unfold lastDayOfMonth
  split
  · rename_i h12
    have : prevDay ⟨d.year + 1, 1, 1⟩ = ⟨d.year, 12, 31⟩ := by
      unfold prevDay; simp
    rw [this, h12]
    have : daysInMonth d.year 12 = 31 := by simp [daysInMonth]
    rw [this]
  · rename_i h12
    unfold prevDay
    simp only []
    rw [if_neg (by simp), if_pos (by simp; omega)]
    simp

theorem chunkEndOf_spec {current endD : Date} (hc : current.Valid) (he : endD.Valid)
    (hle : toOrd current ≤ toOrd endD) :
    (chunkEndOf current endD).Valid ∧
    toOrd current ≤ toOrd (chunkEndOf current endD) ∧
    toOrd (chunkEndOf current endD) ≤ toOrd endD ∧
    toOrd (chunkEndOf current endD) + 1 - toOrd current ≤ 16 := by
  obtain ⟨hy, hm1, hm2, hd1, hd2⟩ := hc
  have hge : 28 ≤ daysInMonth current.year current.month := daysInMonth_ge
  have hlt : daysInMonth current.year current.month ≤ 31 := daysInMonth_le
  unfold chunkEndOf
  split
  · rename_i hday
    have hcv : (Date.mk current.year current.month 15).Valid :=
      valid_mk hy hm1 hm2 (by omega) (by omega)
    have hco : toOrd (Date.mk current.year current.month 15) =
        daysBeforeYear current.year + monthsSum current.year (current.month - 1) + 15 := rfl
    have hcur : toOrd current =
        daysBeforeYear current.year + monthsSum current.year (current.month - 1) +
          current.day := rfl
    refine ⟨minDate_valid hcv he, ?_, ?_, ?_⟩ <;>
      rw [toOrd_minDate] <;> omega
  · rename_i hday
    rw [lastDayOfMonth_eq ⟨hy, hm1, hm2, hd1, hd2⟩]
    have hcv : (Date.mk current.year current.month
        (daysInMonth current.year current.month)).Valid :=
      valid_mk hy hm1 hm2 (by omega) (by omega)
    have hco : toOrd (Date.mk current.year current.month
        (daysInMonth current.year current.month)) =
        daysBeforeYear current.year + monthsSum current.year (current.month - 1) +
          daysInMonth current.year current.month := rfl
    have hcur : toOrd current =
        daysBeforeYear current.year + monthsSum current.year (current.month - 1) +
          current.day := rfl
    refine ⟨minDate_valid hcv he, ?_, ?_, ?_⟩ <;>
      rw [toOrd_minDate] <;> omega

/-- Interval-partition predicate: `covOK a b cs` says the ordinal intervals of the
chunks in `cs` tile `[a, b]` exactly, in order, each spanning at most 16 days. -/
def covOK (a b : Nat) : List (Date × Date) → Prop
  | [] => a = b + 1
  | p :: rest =>
    toOrd p.1 = a ∧ a ≤ toOrd p.2 ∧ toOrd p.2 ≤ b ∧ toOrd p.2 + 1 - a ≤ 16 ∧
      covOK (toOrd p.2 + 1) b rest

theorem genChunksAux_covOK (endD : Date) (he : endD.Valid) :
    ∀ fuel (current : Date), current.Valid →
      toOrd current ≤ toOrd endD + 1 → toOrd endD + 1 - toOrd current ≤ fuel →
      covOK (toOrd current) (toOrd endD) (genChunksAux endD fuel current)
  | 0, current, _, hub, hfuel => by
    have : toOrd current = toOrd endD + 1 := by omega
    simpa [genChunksAux, covOK] using this
  | fuel + 1, current, hv, hub, hfuel => by
    unfold genChunksAux
    split
    · rename_i hle
      obtain ⟨hcev, hce1, hce2, hce3⟩ := chunkEndOf_spec hv he hle
      have hnv : (nextDay (chunkEndOf current endD)).Valid := nextDay_valid hcev
      have hno : toOrd (nextDay (chunkEndOf current endD)) =
          toOrd (chunkEndOf current endD) + 1 := toOrd_nextDay hcev
      refine ⟨rfl, hce1, hce2, hce3, ?_⟩
      have := genChunksAux_covOK endD he fuel (nextDay (chunkEndOf current endD)) hnv
        (by omega) (by omega)
      rwa [hno] at this
    · rename_i hgt
      have : toOrd current = toOrd endD + 1 := by omega
      simpa [covOK] using this

theorem covOK_bounds {a b : Nat} :
    ∀ {cs : List (Date × Date)}, covOK a b cs →
      ∀ p ∈ cs, a ≤ toOrd p.1 ∧ toOrd p.1 ≤ toOrd p.2 ∧ toOrd p.2 ≤ b ∧
        toOrd p.2 + 1 - toOrd p.1 ≤ 16
  | [], _, p, hp => by cases hp
  | q :: rest, ⟨h1, h2, h3, h4, h5⟩, p, hp => by
    rcases List.mem_cons.mp hp with rfl | hp
    · exact ⟨by omega, by omega, h3, by omega⟩
    · have := covOK_bounds h5 p hp
      exact ⟨by omega, this.2.1, this.2.2.1, this.2.2.2⟩

theorem covOK_chain {a b : Nat} :
    ∀ {cs : List (Date × Date)}, covOK a b cs →
      cs.Chain' (fun p q => toOrd q.1 = toOrd p.2 + 1)
  | [], _ => List.chain'_nil
  | [q], _ => List.chain'_singleton q
  | q :: r :: rest, ⟨h1, h2, h3, h4, h5⟩ => by
    refine List.Chain'.cons ?_ (covOK_chain h5)
    exact h5.1

theorem covOK_pairwise {a b : Nat} :
    ∀ {cs : List (Date × Date)}, covOK a b cs →
      cs.Pairwise (fun p q => toOrd p.2 < toOrd q.1)
  | [], _ => List.Pairwise.nil
  | q :: rest, ⟨h1, h2, h3, h4, h5⟩ => by
    refine List.Pairwise.cons ?_ (covOK_pairwise h5)
    intro p hp
    have := (covOK_bounds h5 p hp).1
    omega

theorem covOK_cover {a b : Nat} :
    ∀ {cs : List (Date × Date)}, covOK a b cs →
      ∀ n, (a ≤ n ∧ n ≤ b) ↔ ∃ p ∈ cs, toOrd p.1 ≤ n ∧ n ≤ toOrd p.2
  | [], h, n => by
    simp only [covOK] at h
    constructor
    · intro hn; omega
    · rintro ⟨p, hp, -⟩; cases hp
  | q :: rest, ⟨h1, h2, h3, h4, h5⟩, n => by
    constructor
    · intro hn
      by_cases hq : n ≤ toOrd q.2
      · exact ⟨q, List.mem_cons_self q rest, by omega, hq⟩
      · obtain ⟨p, hp, hpn⟩ := ((covOK_cover h5 n).mp (by omega))
        exact ⟨p, List.mem_cons_of_mem q hp, hpn⟩
    · rintro ⟨p, hp, hp1, hp2⟩
      rcases List.mem_cons.mp hp with rfl | hp
      · omega
      · have hb := covOK_bounds h5 p hp
        have := (covOK_cover h5 n).mpr ⟨p, hp, hp1, hp2⟩
        omega

/-- C1: for every pair of parseable calendar dates with `startDate ≤ endDate`, the
chunk list returned by `generate_15day_chunks` consists of well-formed chunks of at
most 16 days, consecutive chunks are contiguous (each starts the day after the
previous one ends), the chunks are ordered and pairwise non-overlapping, and their
union is exactly the closed interval `[startDate, endDate]` (stated on the
chronological ordinals `toOrd`). -/
theorem c1_planner_partition (s1 s2 : String) (d1 d2 : Date)
    (h1 : strptimeIso s1 = some d1) (h2 : strptimeIso s2 = some d2)
    (hle : toOrd d1 ≤ toOrd d2) :
    ∃ cs, generate_15day_chunks s1 s2 = some cs ∧
      (∀ p ∈ cs, toOrd p.1 ≤ toOrd p.2 ∧ toOrd p.2 + 1 - toOrd p.1 ≤ 16) ∧
      cs.Chain' (fun p q => toOrd q.1 = toOrd p.2 + 1) ∧
      cs.Pairwise (fun p q => toOrd p.2 < toOrd q.1) ∧
      (∀ n, (toOrd d1 ≤ n ∧ n ≤ toOrd d2) ↔
        ∃ p ∈ cs, toOrd p.1 ≤ n ∧ n ≤ toOrd p.2) := by
  have hv1 := strptimeIso_valid h1
  have hv2 := strptimeIso_valid h2
  have hcov := genChunksAux_covOK d2 hv2 (toOrd d2 + 1 - toOrd d1) d1 hv1
    (by omega) (by omega)
  refine ⟨genChunksAux d2 (toOrd d2 + 1 - toOrd d1) d1, ?_, ?_, ?_, ?_, ?_⟩
  · unfold generate_15day_chunks
    rw [h1, h2]
  · intro p hp
    have := covOK_bounds hcov p hp
    exact ⟨this.2.1, this.2.2.2⟩
  · exact covOK_chain hcov
  · exact covOK_pairwise hcov
  · exact covOK_cover hcov

/-- Witness for C1 at the spec's own example range 2024-02-01 .. 2024-03-20. -/
theorem c1_planner_partition_witness :
    strptimeIso "2024-02-01" = some ⟨2024, 2, 1⟩ ∧
    strptimeIso "2024-03-20" = some ⟨2024, 3, 20⟩ ∧
    toOrd ⟨2024, 2, 1⟩ ≤ toOrd ⟨2024, 3, 20⟩ ∧
    (∃ cs, generate_15day_chunks "2024-02-01" "2024-03-20" = some cs ∧
      (∀ p ∈ cs, toOrd p.1 ≤ toOrd p.2 ∧ toOrd p.2 + 1 - toOrd p.1 ≤ 16) ∧
      cs.Chain' (fun p q => toOrd q.1 = toOrd p.2 + 1) ∧
      cs.Pairwise (fun p q => toOrd p.2 < toOrd q.1) ∧
      (∀ n, (toOrd ⟨2024, 2, 1⟩ ≤ n ∧ n ≤ toOrd ⟨2024, 3, 20⟩) ↔
        ∃ p ∈ cs, toOrd p.1 ≤ n ∧ n ≤ toOrd p.2)) :=
  ⟨by decide, by decide, by decide,
    c1_planner_partition "2024-02-01" "2024-03-20" ⟨2024, 2, 1⟩ ⟨2024, 3, 20⟩
      (by decide) (by decide) (by decide)⟩

/-- C4 counterexample: with `startDate` after `endDate` (both parseable), the
planner does not fail at all — it returns the empty chunk list. -/
theorem c4_no_range_error :
    strptimeIso "2024-01-02" = some ⟨2024, 1, 2⟩ ∧
    strptimeIso "2024-01-01" = some ⟨2024, 1, 1⟩ ∧
    toOrd ⟨2024, 1, 1⟩ < toOrd ⟨2024, 1, 2⟩ ∧
    generate_15day_chunks "2024-01-02" "2024-01-01" = some [] := by
  refine ⟨by decide, by decide, by decide, by decide⟩

/-- C4 as amended: an unparsable input string makes `generate_15day_chunks` fail
with the `strptime` parse error, but a parsed start date after the parsed end date
does not fail — the function silently returns an empty chunk list. -/
theorem c4_parse_error_only (s1 s2 : String) (d1 d2 : Date) :
    ((strptimeIso s1 = none ∨ strptimeIso s2 = none) →
      generate_15day_chunks s1 s2 = none) ∧
    (strptimeIso s1 = some d1 → strptimeIso s2 = some d2 →
      toOrd d2 < toOrd d1 → generate_15day_chunks s1 s2 = some []) := by
  constructor
  · intro h
    unfold generate_15day_chunks
    rcases h with h | h
    · rw [h]
    · rw [h]
      cases strptimeIso s1 <;> rfl
  · intro h1 h2 hlt
    unfold generate_15day_chunks
    rw [h1, h2]
    show some (genChunksAux d2 (toOrd d2 + 1 - toOrd d1) d1) = some []
    have : toOrd d2 + 1 - toOrd d1 = 0 := by omega
    rw [this]
    rfl

/-- Witness for the amended C4: an unparsable start date fails; a reversed but
parseable range returns `some []`. -/
theorem c4_parse_error_only_witness :
    strptimeIso "2024-01-xx" = none ∧
    generate_15day_chunks "2024-01-xx" "2024-01-01" = none ∧
    strptimeIso "2024-01-02" = some ⟨2024, 1, 2⟩ ∧
    strptimeIso "2024-01-01" = some ⟨2024, 1, 1⟩ ∧
    toOrd ⟨2024, 1, 1⟩ < toOrd ⟨2024, 1, 2⟩ ∧
    generate_15day_chunks "2024-01-02" "2024-01-01" = some [] :=
  ⟨by decide,
    (c4_parse_error_only "2024-01-xx" "2024-01-01" ⟨2024, 1, 2⟩ ⟨2024, 1, 1⟩).1
      (Or.inl (by decide)),
    by decide, by decide, by decide,
    (c4_parse_error_only "2024-01-02" "2024-01-01" ⟨2024, 1, 2⟩ ⟨2024, 1, 1⟩).2
      (by decide) (by decide) (by decide)⟩

/-! ### The Fetcher: `download_bhav_zip`

One attempt's outcome, as the `try` body classifies it: a `requests` transport
error (`requests.exceptions.RequestException`, caught and retried), any other
exception (caught, `break`s out of the retry loop), or an HTTP response with a
status code and `Content-Type` / `Content-Disposition` headers. -/

inductive Resp where
  | reqExc
  | otherExc
  | http (status : Nat) (ctype cdisp : String)
deriving DecidableEq, Repr

/-- Does `s` start with `pat`? -/
def charsStart : List Char → List Char → Bool
  | [], _ => true
  | _ :: _, [] => false
  | p :: ps, c :: cs => p == c && charsStart ps cs

/-- Does `pat` occur contiguously in `s`? -/
def charsContain (pat : List Char) : List Char → Bool
  | [] => pat.isEmpty
  | c :: cs => charsStart pat (c :: cs) || charsContain pat cs

/-- Python's substring containment `pat in s`. -/
def strContains (s pat : String) : Bool := charsContain pat.data s.data

/-- A response recognised as a downloadable archive: HTTP 200 with an
octet-stream content type or an attachment disposition. -/
def isArchiveResp : Resp → Bool
  | .http s ct cd => s == 200 && (strContains ct "application/octet-stream" ||
      strContains cd "attachment")
  | _ => false

/-- A 200 response that is not a recognised archive (the debug-artifact branch). -/
def isOddSuccess : Resp → Bool
  | .http s ct cd => s == 200 && !(strContains ct "application/octet-stream" ||
      strContains cd "attachment")
  | _ => false

/-- `self.max_retries` of `SamcoBhavDownloader`. -/
def maxRetries : Nat := 3

/-- Result of one `download_bhav_zip` call: returned value, number of loop
iterations entered, archive files persisted, debug artifacts persisted, and the
paths appended to `stats['files_downloaded']`. -/
structure DLOut where
  result : Option String
  attempts : Nat
  zipsSaved : List String
  debugSaved : List String
  filesDownloaded : List String
deriving DecidableEq, Repr

def zipName (startS endS : String) : String :=
  "bhav_" ++ startS ++ "_to_" ++ endS ++ ".zip"

def debugName (startS endS : String) : String :=
  "debug_" ++ startS ++ "_" ++ endS ++ ".html"

/-- The `for attempt in range(self.max_retries)` loop of `download_bhav_zip`.
`i` is the current attempt index, the second argument the remaining attempts;
`tr` gives attempt `i`'s outcome. -/
def dlGo (startS endS : String) (tr : Nat → Resp) : Nat → Nat → DLOut
  | _, 0 => ⟨none, 0, [], [], []⟩
  | i, rem + 1 =>
    match tr i with
    | .otherExc => ⟨none, 1, [], [], []⟩
    | .reqExc =>
      let r := dlGo startS endS tr (i + 1) rem
      ⟨r.result, r.attempts + 1, r.zipsSaved, r.debugSaved, r.filesDownloaded⟩
    | .http s ct cd =>
      if isArchiveResp (.http s ct cd) then
        ⟨some (zipName startS endS), 1, [zipName startS endS], [],
          [zipName startS endS]⟩
      else if isOddSuccess (.http s ct cd) then
        let r := dlGo startS endS tr (i + 1) rem
        ⟨r.result, r.attempts + 1, r.zipsSaved,
          debugName startS endS :: r.debugSaved, r.filesDownloaded⟩
      else
        let r := dlGo startS endS tr (i + 1) rem
        ⟨r.result, r.attempts + 1, r.zipsSaved, r.debugSaved, r.filesDownloaded⟩

/-- `download_bhav_zip(start, end)` against transport `tr`. -/
def download_bhav_zip (startS endS : String) (tr : Nat → Resp) : DLOut :=
  dlGo startS endS tr 0 maxRetries

theorem dlGo_attempts_le (startS endS : String) (tr : Nat → Resp) :
    ∀ rem i, (dlGo startS endS tr i rem).attempts ≤ rem
  | 0, i => by simp [dlGo]
  | rem + 1, i => by
    unfold dlGo
    match htr : tr i with
    | .otherExc => simp
    | .reqExc => simpa using dlGo_attempts_le startS endS tr rem (i + 1)
    | .http s ct cd =>
      simp only []
      split
      · simp
      · split <;> simpa using dlGo_attempts_le startS endS tr rem (i + 1)

/-- An attempt that is neither a recognised archive response nor a generic
exception (the `break` case) falls through to the next loop iteration, so if
every attempt is such a failure the loop runs `rem` times and returns `None`. -/
theorem dlGo_no_success (startS endS : String) (tr : Nat → Resp) :
    ∀ rem i,
      (∀ k, i ≤ k → k < i + rem → isArchiveResp (tr k) = false ∧ tr k ≠ .otherExc) →
      (dlGo startS endS tr i rem).result = none ∧
        (dlGo startS endS tr i rem).attempts = rem
  | 0, _, _ => ⟨rfl, rfl⟩
  | rem + 1, i, h => by
    have hi := h i (le_refl i) (by omega)
    have ihrec := dlGo_no_success startS endS tr rem (i + 1)
      (fun k h1 h2 => h k (by omega) (by omega))
    unfold dlGo
    match htr : tr i with
    | .otherExc => exact absurd htr hi.2
    | .reqExc => simpa using ihrec
    | .http s ct cd =>
      rw [htr] at hi
      simp only []
      split
      · rename_i hcond
        rw [hi.1] at hcond
        exact Bool.noConfusion hcond
      · split <;> simpa using ihrec

/-- If attempt `i + k` is the first archive response (and no earlier attempt
`break`s out via a generic exception), the loop returns that archive location
and stops right there, after exactly `k + 1` attempts. -/
theorem dlGo_first_success (startS endS : String) (tr : Nat → Resp) :
    ∀ k rem i, k < rem → isArchiveResp (tr (i + k)) = true →
      (∀ j, j < k → isArchiveResp (tr (i + j)) = false ∧ tr (i + j) ≠ .otherExc) →
      (dlGo startS endS tr i rem).result = some (zipName startS endS) ∧
        (dlGo startS endS tr i rem).attempts = k + 1
  | k, 0, _, hk, _, _ => absurd hk (by omega)
  | 0, rem + 1, i, _, harch, _ => by
    rw [Nat.add_zero] at harch
    unfold dlGo
    match htr : tr i with
    | .otherExc =>
      rw [htr] at harch
      exact absurd harch (by decide)
    | .reqExc =>
      rw [htr] at harch
      exact absurd harch (by decide)
    | .http s ct cd =>
      rw [htr] at harch
      simp only []
      rw [if_pos harch]
      exact ⟨rfl, rfl⟩
  | k + 1, rem + 1, i, hk, harch, hpre => by
    have h0 := hpre 0 (by omega)
    rw [Nat.add_zero] at h0
    have ihrec := dlGo_first_success startS endS tr k rem (i + 1) (by omega)
      (by have he : i + 1 + k = i + (k + 1) := by omega
          rw [he]
          exact harch)
      (fun j hj => by
        have hp := hpre (j + 1) (by omega)
        have he : i + (j + 1) = i + 1 + j := by omega
        rw [he] at hp
        exact hp)
    unfold dlGo
    match htr : tr i with
    | .otherExc => exact absurd htr h0.2
    | .reqExc => simpa using ihrec
    | .http s ct cd =>
      rw [htr] at h0
      simp only []
      split
      · rename_i hcond
        rw [h0.1] at hcond
        exact Bool.noConfusion hcond
      · split <;> simpa using ihrec

theorem dlGo_all_fail (startS endS : String) (tr : Nat → Resp) :
    ∀ rem i, (∀ k, i ≤ k → k < i + rem → tr k = .reqExc) →
      dlGo startS endS tr i rem = ⟨none, rem, [], [], []⟩
  | 0, i, _ => by simp [dlGo]
  | rem + 1, i, h => by
    have hi : tr i = .reqExc := h i (le_refl i) (by omega)
    unfold dlGo
    rw [hi]
    have := dlGo_all_fail startS endS tr rem (i + 1)
      (fun k h1 h2 => h k (by omega) (by omega))
    rw [this]

/-- C5: against any simulated transport, `download_bhav_zip` enters the attempt
loop at most `maxRetries` times; if attempt `k` is the first recognised archive
response (and no earlier attempt `break`s via a generic exception), the fetcher
returns that archive location and stops immediately — exactly `k + 1` attempts,
none after the success; if every attempt fails (any mix of request errors, bad
statuses, redirects or unrecognised responses — anything that is neither an
archive nor a `break`) it returns `None` — without raising — after exactly
`maxRetries` attempts; in particular a transport that raises a request error on
every attempt yields `None` after `maxRetries` attempts with nothing persisted
and nothing recorded in the statistics. -/
theorem c5_fetcher_retry_bound (startS endS : String) (tr : Nat → Resp) :
    (download_bhav_zip startS endS tr).attempts ≤ maxRetries ∧
    (∀ k, k < maxRetries → isArchiveResp (tr k) = true →
      (∀ j, j < k → isArchiveResp (tr j) = false ∧ tr j ≠ .otherExc) →
      (download_bhav_zip startS endS tr).result = some (zipName startS endS) ∧
        (download_bhav_zip startS endS tr).attempts = k + 1) ∧
    ((∀ k, k < maxRetries → isArchiveResp (tr k) = false ∧ tr k ≠ .otherExc) →
      (download_bhav_zip startS endS tr).result = none ∧
        (download_bhav_zip startS endS tr).attempts = maxRetries) ∧
    ((∀ k, k < maxRetries → tr k = .reqExc) →
      download_bhav_zip startS endS tr = ⟨none, maxRetries, [], [], []⟩) := by
  refine ⟨dlGo_attempts_le startS endS tr maxRetries 0, ?_, ?_, ?_⟩
  · intro k hk harch hpre
    exact dlGo_first_success startS endS tr k maxRetries 0 hk
      (by simpa using harch) (fun j hj => by simpa using hpre j hj)
  · intro h
    exact dlGo_no_success startS endS tr maxRetries 0
      (fun k h1 h2 => h k (by omega))
  · intro h
    exact dlGo_all_fail startS endS tr maxRetries 0
      (fun k h1 h2 => h k (by omega))

/-- Witness for C5: a first-attempt archive success stops after one attempt with
two attempts unused; a transport failing twice then succeeding returns the
archive on the third attempt; one failing all three attempts yields `None`
after exactly three attempts. -/
theorem c5_fetcher_retry_bound_witness :
    ((download_bhav_zip "a" "b"
        (fun _ => Resp.http 200 "application/octet-stream" "")).result =
          some (zipName "a" "b") ∧
      (download_bhav_zip "a" "b"
        (fun _ => Resp.http 200 "application/octet-stream" "")).attempts = 0 + 1) ∧
    ((download_bhav_zip "a" "b"
        (fun k => if k < 2 then Resp.reqExc
          else Resp.http 200 "application/octet-stream" "")).result =
          some (zipName "a" "b") ∧
      (download_bhav_zip "a" "b"
        (fun k => if k < 2 then Resp.reqExc
          else Resp.http 200 "application/octet-stream" "")).attempts = 2 + 1) ∧
    download_bhav_zip "a" "b" (fun _ => Resp.reqExc) =
      ⟨none, maxRetries, [], [], []⟩ :=
  ⟨(c5_fetcher_retry_bound "a" "b"
      (fun _ => Resp.http 200 "application/octet-stream" "")).2.1 0 (by decide)
      (by decide) (fun j hj => absurd hj (Nat.not_lt_zero j)),
    (c5_fetcher_retry_bound "a" "b"
      (fun k => if k < 2 then Resp.reqExc
        else Resp.http 200 "application/octet-stream" "")).2.1 2 (by decide)
      (by decide) (fun j hj => by rw [if_pos hj]; exact ⟨rfl, by decide⟩),
    (c5_fetcher_retry_bound "a" "b" (fun _ => Resp.reqExc)).2.2.2
      (fun _ _ => rfl)⟩

/-! ### The Aggregator: deduplication and run statistics in `download_all` -/

/-- One row of a parsed bhavcopy table; `timestamp` and `symbol` are the
`TIMESTAMP` and `SYMBOL` columns, `payload` stands for all other columns. -/
structure SRow where
  timestamp : String
  symbol : String
  payload : Nat
deriving DecidableEq, Repr

/-- The `(date, symbol)` natural key used by `drop_duplicates(subset=['TIMESTAMP',
'SYMBOL'])`. -/
def rowKey (r : SRow) : String × String := (r.timestamp, r.symbol)

/-- `DataFrame.drop_duplicates(subset=..., keep='first')`: keep each row whose
key has not been seen earlier in the sequence. -/
def drop_duplicates (seen : List (String × String)) : List SRow → List SRow
  | [] => []
  | r :: rs =>
    if rowKey r ∈ seen then drop_duplicates seen rs
    else r :: drop_duplicates (rowKey r :: seen) rs

/-- `extract_and_process_zip`: the per-chunk dataset is the concatenation of the
parsed files of that chunk's archive, in archive order. -/
def chunkDataset (files : List (List SRow)) : List SRow := files.flatten

/-- The consolidated dataset before sorting: the per-chunk datasets concatenated
in chunk order and deduplicated on `(TIMESTAMP, SYMBOL)` keeping the first. -/
def consolidated (chunks : List (List (List SRow))) : List SRow :=
  drop_duplicates [] ((chunks.map chunkDataset).flatten)

theorem drop_duplicates_not_seen :
    ∀ seen l (r : SRow), r ∈ drop_duplicates seen l → r ∈ l ∧ rowKey r ∉ seen
  | seen, [], r, h => by cases h
  | seen, x :: xs, r, h => by
    by_cases hx : rowKey x ∈ seen
    · rw [drop_duplicates, if_pos hx] at h
      have := drop_duplicates_not_seen seen xs r h
      exact ⟨List.mem_cons_of_mem x this.1, this.2⟩
    · rw [drop_duplicates, if_neg hx] at h
      rcases List.mem_cons.mp h with rfl | h
      · exact ⟨List.mem_cons_self r xs, hx⟩
      · have := drop_duplicates_not_seen (rowKey x :: seen) xs r h
        refine ⟨List.mem_cons_of_mem x this.1, fun hc => this.2 ?_⟩
        exact List.mem_cons_of_mem _ hc

theorem drop_duplicates_pairwise :
    ∀ seen l, (drop_duplicates seen l).Pairwise (fun a b => rowKey a ≠ rowKey b)
  | seen, [] => List.Pairwise.nil
  | seen, x :: xs => by
    by_cases hx : rowKey x ∈ seen
    · rw [drop_duplicates, if_pos hx]
      exact drop_duplicates_pairwise seen xs
    · rw [drop_duplicates, if_neg hx]
      refine List.Pairwise.cons ?_ (drop_duplicates_pairwise (rowKey x :: seen) xs)
      intro b hb hkey
      have := (drop_duplicates_not_seen _ xs b hb).2
      exact this (by rw [← hkey]; exact List.mem_cons_self _ _)

theorem drop_duplicates_first :
    ∀ seen l (r : SRow), r ∈ drop_duplicates seen l →
      l.find? (fun x => decide (rowKey x = rowKey r)) = some r
  | seen, [], r, h => by cases h
  | seen, x :: xs, r, h => by
    by_cases hx : rowKey x ∈ seen
    · rw [drop_duplicates, if_pos hx] at h
      have hne : rowKey x ≠ rowKey r := by
        intro he
        exact (drop_duplicates_not_seen seen xs r h).2 (he ▸ hx)
      rw [List.find?_cons_of_neg _ (by simpa using hne)]
      exact drop_duplicates_first seen xs r h
    · rw [drop_duplicates, if_neg hx] at h
      rcases List.mem_cons.mp h with rfl | h
      · rw [List.find?_cons_of_pos _ (by simp)]
      · have hnotin := (drop_duplicates_not_seen (rowKey x :: seen) xs r h).2
        have hne : rowKey x ≠ rowKey r := fun he =>
          hnotin (he ▸ List.mem_cons_self _ _)
        rw [List.find?_cons_of_neg _ (by simpa using hne)]
        exact drop_duplicates_first (rowKey x :: seen) xs r h

theorem drop_duplicates_complete :
    ∀ seen l (r : SRow), r ∈ l →
      rowKey r ∈ seen ∨ ∃ r' ∈ drop_duplicates seen l, rowKey r' = rowKey r
  | seen, [], r, h => by cases h
  | seen, x :: xs, r, h => by
    by_cases hx : rowKey x ∈ seen
    · rw [drop_duplicates, if_pos hx]
      rcases List.mem_cons.mp h with rfl | h
      · exact Or.inl hx
      · exact drop_duplicates_complete seen xs r h
    · rw [drop_duplicates, if_neg hx]
      rcases List.mem_cons.mp h with rfl | h
      · exact Or.inr ⟨r, List.mem_cons_self _ _, rfl⟩
      · rcases drop_duplicates_complete (rowKey x :: seen) xs r h with hs | ⟨r', hr', hk⟩
        · rcases List.mem_cons.mp hs with he | hs
          · exact Or.inr ⟨x, List.mem_cons_self _ _, he.symm⟩
          · exact Or.inl hs
        · exact Or.inr ⟨r', List.mem_cons_of_mem x hr', hk⟩

/-- C6: when the `TIMESTAMP` and `SYMBOL` columns are present, the consolidated
dataset has no two rows with the same `(date, symbol)` key; every retained row is
the first row with its key in the concatenation (chunk-processing order, then
within-file order); and every key occurring in the input is represented. -/
theorem c6_dedup_first (chunks : List (List (List SRow))) :
    (consolidated chunks).Pairwise (fun a b => rowKey a ≠ rowKey b) ∧
    (∀ r ∈ consolidated chunks,
      ((chunks.map chunkDataset).flatten).find? (fun x => decide (rowKey x = rowKey r)) =
        some r) ∧
    (∀ r ∈ (chunks.map chunkDataset).flatten,
      ∃ r' ∈ consolidated chunks, rowKey r' = rowKey r) := by
  refine ⟨drop_duplicates_pairwise [] _, ?_, ?_⟩
  · intro r hr
    exact drop_duplicates_first [] _ r hr
  · intro r hr
    rcases drop_duplicates_complete [] _ r hr with hs | h
    · cases hs
    · exact h

/-- Witness for C6: two rows sharing a key across two chunks collapse to the
first-encountered row. -/
theorem c6_dedup_first_witness :
    (⟨"d1", "A", 1⟩ : SRow) ∈ consolidated [[[⟨"d1", "A", 1⟩]], [[⟨"d1", "A", 2⟩]]] ∧
    (([[[(⟨"d1", "A", 1⟩ : SRow)]], [[⟨"d1", "A", 2⟩]]].map chunkDataset).flatten).find?
      (fun x => decide (rowKey x = rowKey ⟨"d1", "A", 1⟩)) = some ⟨"d1", "A", 1⟩ :=
  ⟨by decide,
    (c6_dedup_first [[[⟨"d1", "A", 1⟩]], [[⟨"d1", "A", 2⟩]]]).2.1
      ⟨"d1", "A", 1⟩ (by decide)⟩

/-! ### Run statistics of `download_all` (C10) -/

/-- `self.stats` of `SamcoBhavDownloader`. -/
structure RunStats where
  successful : Nat
  failed : Nat
  total_records : Nat
  files_downloaded : List String
deriving DecidableEq, Repr

/-- One iteration of the chunk loop in `download_all`: download (which appends
the archive location to `files_downloaded` on success inside
`download_bhav_zip`), then extract; `successful` is incremented only when the
extraction yields a non-empty dataset, otherwise `failed` is. `extract i = none`
models a failed or empty extraction of chunk `i`, `some rows` a parsed dataset
(`total_records` grows by its length as in `extract_and_process_zip`). -/
def stepChunk (tr : Nat → Nat → Resp) (extract : Nat → Option (List SRow))
    (i : Nat) (c : String × String) (st : RunStats) : RunStats :=
  let dl := download_bhav_zip c.1 c.2 (tr i)
  let st1 := { st with files_downloaded := st.files_downloaded ++ dl.filesDownloaded }
  match dl.result with
  | some _ =>
    match extract i with
    | some rows =>
      let st2 := { st1 with total_records := st1.total_records + rows.length }
      if rows.isEmpty then { st2 with failed := st2.failed + 1 }
      else { st2 with successful := st2.successful + 1 }
    | none => { st1 with failed := st1.failed + 1 }
  | none => { st1 with failed := st1.failed + 1 }

def runAllAux (tr : Nat → Nat → Resp) (extract : Nat → Option (List SRow)) :
    Nat → List (String × String) → RunStats → RunStats
  | _, [], st => st
  | i, c :: cs, st => runAllAux tr extract (i + 1) cs (stepChunk tr extract i c st)

/-- The statistics produced by one `download_all` run over the given chunks. -/
def download_all_stats (chunks : List (String × String)) (tr : Nat → Nat → Resp)
    (extract : Nat → Option (List SRow)) : RunStats :=
  runAllAux tr extract 0 chunks ⟨0, 0, 0, []⟩

theorem dlGo_files_result (startS endS : String) (tr : Nat → Resp) :
    ∀ rem i, (dlGo startS endS tr i rem).filesDownloaded.length =
      (if (dlGo startS endS tr i rem).result.isSome then 1 else 0)
  | 0, i => by simp [dlGo]
  | rem + 1, i => by
    unfold dlGo
    match htr : tr i with
    | .otherExc => simp
    | .reqExc => simpa using dlGo_files_result startS endS tr rem (i + 1)
    | .http s ct cd =>
      simp only []
      split
      · simp
      · split <;> simpa using dlGo_files_result startS endS tr rem (i + 1)

theorem stepChunk_invariant (tr : Nat → Nat → Resp) (extract : Nat → Option (List SRow))
    (i : Nat) (c : String × String) (st : RunStats)
    (h : st.successful ≤ st.files_downloaded.length) :
    (stepChunk tr extract i c st).successful ≤
      (stepChunk tr extract i c st).files_downloaded.length := by
  unfold stepChunk
  have hfl := dlGo_files_result c.1 c.2 (tr i) maxRetries 0
  match hres : (download_bhav_zip c.1 c.2 (tr i)).result with
  | some p =>
    have : (download_bhav_zip c.1 c.2 (tr i)).filesDownloaded.length = 1 := by
      unfold download_bhav_zip at hres ⊢
      rw [hfl, hres]
      rfl
    match extract i with
    | some rows =>
      by_cases hrows : rows.isEmpty <;>
        simp [hres, hrows, List.length_append, this] <;> omega
    | none => simp [hres, List.length_append, this]; omega
  | none => simp [hres, List.length_append]; omega

theorem runAllAux_invariant (tr : Nat → Nat → Resp) (extract : Nat → Option (List SRow)) :
    ∀ chunks i st, st.successful ≤ st.files_downloaded.length →
      (runAllAux tr extract i chunks st).successful ≤
        (runAllAux tr extract i chunks st).files_downloaded.length
  | [], _, _, h => h
  | c :: cs, i, st, h =>
    runAllAux_invariant tr extract cs (i + 1) (stepChunk tr extract i c st)
      (stepChunk_invariant tr extract i c st h)

/-- C10: the archive location is appended to `stats['files_downloaded']` inside
`download_bhav_zip` as soon as the download succeeds, so on every run the number
of recorded archive locations is at least `successful`; and it can strictly
exceed it — a chunk whose download succeeds but whose extraction fails (or yields
an empty dataset) is counted in `failed` while its archive location is kept. -/
theorem c10_files_ge_success :
    (∀ chunks tr extract,
      (download_all_stats chunks tr extract).successful ≤
        (download_all_stats chunks tr extract).files_downloaded.length) ∧
    download_all_stats [("s", "e")]
      (fun _ _ => Resp.http 200 "application/octet-stream" "")
      (fun _ => none) = ⟨0, 1, 0, [zipName "s" "e"]⟩ ∧
    download_all_stats [("s", "e")]
      (fun _ _ => Resp.http 200 "application/octet-stream" "")
      (fun _ => some []) = ⟨0, 1, 0, [zipName "s" "e"]⟩ := by
  refine ⟨fun chunks tr extract => ?_, by decide, by decide⟩
  exact runAllAux_invariant tr extract chunks 0 ⟨0, 0, 0, []⟩ (by simp)

/-! ### The RenameDetector: `find_ticker_changes_from_bhavcopies`

Python string primitives used by the script, modelled on character lists (code
points), which is what CPython compares and strips:  `str.strip()` (ASCII
whitespace), `str.endswith`, and lexicographic comparison as used by
`list.sort()` on the discovered file paths. -/

def isSpaceCh (c : Char) : Bool :=
  c = ' ' || c = '\t' || c = '\n' || c = '\x0d' || c = '\x0b' || c = '\x0c'

/-- Python `str.strip()` (whitespace at both ends; ASCII subset). -/
def pyStrip (s : String) : String :=
  ⟨((s.data.dropWhile (fun c => isSpaceCh c)).reverse.dropWhile
    (fun c => isSpaceCh c)).reverse⟩

/-- Python `str.endswith(pat)`. -/
def pyEndsWith (s pat : String) : Bool := charsStart pat.data.reverse s.data.reverse

/-- Code-point lexicographic `≤` on strings, the order `list.sort()` uses. -/
def charsLE : List Char → List Char → Bool
  | [], _ => true
  | _ :: _, [] => false
  | a :: as, b :: bs =>
    if a.toNat = b.toNat then charsLE as bs else decide (a.toNat < b.toNat)

/-- One row of a bhavcopy CSV, restricted to the columns the script reads
(`usecols=['SYMBOL', 'SERIES', 'ISIN']`); `ISIN = none` models a NaN cell. -/
structure BRow where
  SYMBOL : String
  SERIES : String
  ISIN : Option String
deriving DecidableEq, Repr

/-- A per-ISIN entry of `isin_tracker` (the SecurityRecord). -/
structure SecRec where
  symbols : List String
  last_seen_symbol : String
  first_seen : Date
deriving DecidableEq, Repr

/-- One entry of `changes_log` (a RenameEvent). -/
structure ChangeRec where
  ISIN : String
  Old_Symbol : String
  New_Symbol : String
  Date_Detected : Date
deriving DecidableEq, Repr

/-- `isin_tracker`: a Python dict, modelled as an association list (only lookup
and in-place update are used). -/
abbrev Tracker := List (String × SecRec)

def trkFind : Tracker → String → Option SecRec
  | [], _ => none
  | (k, v) :: t, i => if k = i then some v else trkFind t i

def trkSet : Tracker → String → SecRec → Tracker
  | [], i, sr => [(i, sr)]
  | (k, v) :: t, i, sr => if k = i then (k, sr) :: t else (k, v) :: trkSet t i sr

/-- Processing one equity row: create the record on a first-ever ISIN, emit a
change record and update when the (stripped) symbol is not in the record's
symbol set, do nothing when it is. Rows with NaN ISIN are skipped. -/
def stepRow (d : Date) (st : Tracker × List ChangeRec) (r : BRow) :
    Tracker × List ChangeRec :=
  match r.ISIN with
  | none => st
  | some isin =>
    let symbol := pyStrip r.SYMBOL
    match trkFind st.1 isin with
    | none => (trkSet st.1 isin ⟨[symbol], symbol, d⟩, st.2)
    | some sr =>
      if symbol ∈ sr.symbols then st
      else (trkSet st.1 isin ⟨sr.symbols ++ [symbol], symbol, sr.first_seen⟩,
        st.2 ++ [⟨isin, sr.last_seen_symbol, symbol, d⟩])

/-- `df[df['SERIES'] == 'EQ']`. -/
def eqRows (rows : List BRow) : List BRow := rows.filter (fun r => r.SERIES == "EQ")

/-- Processing all equity rows of one file dated `d`. -/
def procRows (d : Date) (st : Tracker × List ChangeRec) (rows : List BRow) :
    Tracker × List ChangeRec :=
  (eqRows rows).foldl (stepRow d) st

/-- One discovered file: its full path and either its parsed rows or `none` when
reading raises one of the caught exceptions (`FileNotFoundError`,
`EmptyDataError`). -/
structure BFile where
  name : String
  data : Option (List BRow)
deriving DecidableEq, Repr

/-- `os.path.basename`. -/
def basenameChars (cs : List Char) : List Char :=
  cs.foldl (fun acc c => if c = '/' then [] else acc ++ [c]) []

/-- The date derived from a file's name:
`datetime.strptime(os.path.basename(path).split('_')[0], '%Y%m%d')`. -/
def fileDate (name : String) : Option Date :=
  strptimeYmd ⟨(basenameChars name.data).takeWhile (fun c => c ≠ '_')⟩

/-- `file.endswith(('.csv', '.CSV'))`. -/
def isCsvName (s : String) : Bool := pyEndsWith s ".csv" || pyEndsWith s ".CSV"

def fileLE (a b : BFile) : Prop := charsLE a.name.data b.name.data = true

instance : DecidableRel fileLE := fun a b => by
  unfold fileLE; infer_instance

theorem charsLE_total : ∀ as bs, charsLE as bs = true ∨ charsLE bs as = true
  | [], _ => Or.inl rfl
  | _ :: _, [] => Or.inr rfl
  | a :: as, b :: bs => by
    unfold charsLE
    rcases Nat.lt_trichotomy a.toNat b.toNat with h | h | h
    · left; rw [if_neg (by omega)]; simpa using h
    · rcases charsLE_total as bs with ih | ih
      · left; rwa [if_pos h]
      · right; rwa [if_pos h.symm]
    · right; rw [if_neg (by omega)]; simpa using h

theorem charsLE_trans : ∀ as bs cs, charsLE as bs = true → charsLE bs cs = true →
    charsLE as cs = true
  | [], _, _, _, _ => rfl
  | a :: as, [], cs, h, _ => by simp [charsLE] at h
  | a :: as, b :: bs, [], _, h => by simp [charsLE] at h
  | a :: as, b :: bs, c :: cs, h1, h2 => by
    unfold charsLE at h1 h2 ⊢
    by_cases hab : a.toNat = b.toNat <;> by_cases hbc : b.toNat = c.toNat
    · rw [if_pos hab] at h1; rw [if_pos hbc] at h2
      rw [if_pos (by omega)]
      exact charsLE_trans as bs cs h1 h2
    · rw [if_neg hbc] at h2
      rw [if_neg (by omega)]
      simp at h2 ⊢; omega
    · rw [if_neg hab] at h1
      rw [if_neg (by omega)]
      simp at h1 ⊢; omega
    · rw [if_neg hab] at h1; rw [if_neg hbc] at h2
      rw [if_neg (by simp at h1 h2; omega)]
      simp at h1 h2 ⊢; omega

instance : IsTotal BFile fileLE :=
  ⟨fun a b => charsLE_total a.name.data b.name.data⟩

instance : IsTrans BFile fileLE :=
  ⟨fun a b c => charsLE_trans a.name.data b.name.data c.name.data⟩

/-- The iteration order of the script: all `.csv`/`.CSV` files, sorted by full
path with Python's stable ascending `list.sort()`. -/
def processOrder (files : List BFile) : List BFile :=
  List.insertionSort fileLE (files.filter (fun f => isCsvName f.name))

/-- The `for file_path in all_files` loop.  A filename whose date token does not
parse raises `ValueError`, which none of the `except` clauses catches, so the
whole call fails: modelled by `Except.error ()`.  A file whose read fails with a
caught exception is skipped. -/
def procFiles : List BFile → Tracker × List ChangeRec →
    Except Unit (Tracker × List ChangeRec)
  | [], st => .ok st
  | f :: fs, st =>
    match fileDate f.name with
    | none => .error ()
    | some d =>
      match f.data with
      | none => procFiles fs st
      | some rows => procFiles fs (procRows d st rows)

/-- `find_ticker_changes_from_bhavcopies`, as a function of the discovered
files; returns the final tracker state and the change log. -/
def find_ticker_changes_from_bhavcopies (files : List BFile) :
    Except Unit (Tracker × List ChangeRec) :=
  procFiles (processOrder files) ([], [])

/-! ### Observation sequences and the per-identifier state characterisation -/

/-- The `(date, stripped symbol)` observations of identifier `i` among the
equity rows of one file dated `d`, in row order. -/
def obsRows (i : String) (d : Date) (rows : List BRow) : List (Date × String) :=
  (eqRows rows).filterMap
    (fun r => if r.ISIN = some i then some (d, pyStrip r.SYMBOL) else none)

/-- All observations of identifier `i` over a file list, in processing order. -/
def obsIn (i : String) : List BFile → List (Date × String)
  | [] => []
  | f :: fs =>
    (match fileDate f.name, f.data with
     | some d, some rows => obsRows i d rows
     | _, _ => []) ++ obsIn i fs

/-- The per-identifier projection of `stepRow`. -/
def recStep (o : Option SecRec) (p : Date × String) : Option SecRec :=
  match o with
  | none => some ⟨[p.2], p.2, p.1⟩
  | some sr =>
    if p.2 ∈ sr.symbols then some sr
    else some ⟨sr.symbols ++ [p.2], p.2, sr.first_seen⟩

/-- The subsequence of observations whose label is fresh — not seen before for
this identifier (given the labels in `seen` were seen already). -/
def freshSubseq (seen : List String) : List (Date × String) → List (Date × String)
  | [] => []
  | o :: rest =>
    if o.2 ∈ seen then freshSubseq seen rest
    else o :: freshSubseq (seen ++ [o.2]) rest

/-- Label of the last observation in `l`, or `dflt` if there is none. -/
def lastLabelFold (dflt : String) (l : List (Date × String)) : String :=
  l.foldl (fun _ o => o.2) dflt

theorem trkFind_trkSet_same : ∀ (t : Tracker) i sr, trkFind (trkSet t i sr) i = some sr
  | [], i, sr => by simp [trkSet, trkFind]
  | (k, v) :: t, i, sr => by
    unfold trkSet
    by_cases h : k = i
    · rw [if_pos h]
      unfold trkFind
      rw [if_pos h]
    · rw [if_neg h]
      unfold trkFind
      rw [if_neg h]
      exact trkFind_trkSet_same t i sr

theorem trkFind_trkSet_other : ∀ (t : Tracker) i j sr, j ≠ i →
    trkFind (trkSet t j sr) i = trkFind t i
  | [], i, j, sr, h => by simp [trkSet, trkFind, h]
  | (k, v) :: t, i, j, sr, h => by
    unfold trkSet
    by_cases hkj : k = j
    · rw [if_pos hkj]
      unfold trkFind
      rw [if_neg (by rw [hkj]; exact h), if_neg (by rw [hkj]; exact h)]
    · rw [if_neg hkj]
      unfold trkFind
      by_cases hki : k = i
      · rw [if_pos hki, if_pos hki]
      · rw [if_neg hki, if_neg hki]
        exact trkFind_trkSet_other t i j sr h

theorem trkFind_stepRow_eq (d : Date) (st : Tracker × List ChangeRec) (r : BRow)
    (i : String) (hi : r.ISIN = some i) :
    trkFind (stepRow d st r).1 i = recStep (trkFind st.1 i) (d, pyStrip r.SYMBOL) := by
  unfold stepRow
  rw [hi]
  cases hf : trkFind st.1 i with
  | none =>
    simp only [hf, recStep]
    exact trkFind_trkSet_same st.1 i _
  | some sr =>
    simp only [hf, recStep]
    by_cases hmem : pyStrip r.SYMBOL ∈ sr.symbols
    · rw [if_pos hmem, if_pos hmem]
      exact hf
    · rw [if_neg hmem, if_neg hmem]
      exact trkFind_trkSet_same st.1 i _

theorem trkFind_stepRow_ne (d : Date) (st : Tracker × List ChangeRec) (r : BRow)
    (i : String) (hi : r.ISIN ≠ some i) :
    trkFind (stepRow d st r).1 i = trkFind st.1 i := by
  unfold stepRow
  cases hr : r.ISIN with
  | none => rfl
  | some j =>
    have hj : j ≠ i := fun he => hi (by rw [hr, he])
    cases hf : trkFind st.1 j with
    | none =>
      simp only [hf]
      exact trkFind_trkSet_other st.1 i j _ hj
    | some sr =>
      simp only [hf]
      split
      · rfl
      · exact trkFind_trkSet_other st.1 i j _ hj

theorem trkFind_foldRows (d : Date) (i : String) :
    ∀ (l : List BRow) (st : Tracker × List ChangeRec),
      trkFind (l.foldl (stepRow d) st).1 i =
        (l.filterMap (fun r =>
          if r.ISIN = some i then some (d, pyStrip r.SYMBOL) else none)).foldl
          recStep (trkFind st.1 i)
  | [], st => rfl
  | r :: l, st => by
    rw [List.foldl_cons]
    by_cases hi : r.ISIN = some i
    · rw [List.filterMap_cons_some (b := (d, pyStrip r.SYMBOL)) (by simp [hi]),
        List.foldl_cons,
        trkFind_foldRows d i l (stepRow d st r), trkFind_stepRow_eq d st r i hi]
    · rw [List.filterMap_cons_none (by simp [hi]),
        trkFind_foldRows d i l (stepRow d st r), trkFind_stepRow_ne d st r i hi]

theorem trkFind_procFiles (i : String) :
    ∀ (l : List BFile) (st : Tracker × List ChangeRec) out,
      procFiles l st = .ok out →
      trkFind out.1 i = (obsIn i l).foldl recStep (trkFind st.1 i)
  | [], st, out, h => by
    cases h
    rfl
  | f :: fs, st, out, h => by
    unfold procFiles at h
    cases hd : fileDate f.name with
    | none =>
      rw [hd] at h
      exact Except.noConfusion h
    | some d =>
      rw [hd] at h
      cases hdata : f.data with
      | none =>
        rw [hdata] at h
        rw [trkFind_procFiles i fs st out h]
        simp [obsIn, hd, hdata]
      | some rows =>
        rw [hdata] at h
        rw [trkFind_procFiles i fs (procRows d st rows) out h]
        have hrows : trkFind (procRows d st rows).1 i =
            (obsRows i d rows).foldl recStep (trkFind st.1 i) :=
          trkFind_foldRows d i (eqRows rows) st
        simp [obsIn, hd, hdata, List.foldl_append, hrows]

theorem foldl_recStep_some :
    ∀ (obs : List (Date × String)) (sr : SecRec),
      obs.foldl recStep (some sr) =
        some ⟨sr.symbols ++ (freshSubseq sr.symbols obs).map (fun o => o.2),
          lastLabelFold sr.last_seen_symbol (freshSubseq sr.symbols obs),
          sr.first_seen⟩
  | [], sr => by simp [freshSubseq, lastLabelFold]
  | o :: rest, sr => by
    rw [List.foldl_cons]
    by_cases hmem : o.2 ∈ sr.symbols
    · rw [show recStep (some sr) o = some sr by simp [recStep, hmem]]
      rw [foldl_recStep_some rest sr]
      simp [freshSubseq, hmem]
    · rw [show recStep (some sr) o =
        some ⟨sr.symbols ++ [o.2], o.2, sr.first_seen⟩ by simp [recStep, hmem]]
      rw [foldl_recStep_some rest ⟨sr.symbols ++ [o.2], o.2, sr.first_seen⟩]
      simp only [freshSubseq, if_neg hmem]
      simp [lastLabelFold]

theorem lastLabelFold_cons_getLast :
    ∀ (fs : List (Date × String)) (o : Date × String),
      ∃ o', (o :: fs).getLast? = some o' ∧ lastLabelFold o.2 fs = o'.2
  | [], o => ⟨o, rfl, rfl⟩
  | p :: fs, o => by
    obtain ⟨o', h1, h2⟩ := lastLabelFold_cons_getLast fs p
    exact ⟨o', by rw [List.getLast?_cons_cons]; exact h1, h2⟩

/-- C2 counterexample: identifier `I1` is observed as `OLD` (day 1), `NEW`
(day 2), `OLD` again (day 3).  After the full run, `last_seen_symbol` is still
`NEW`, while the label observed at the most recent processed date is `OLD` —
so `currentLabel` does not always equal the most recently observed label. -/
theorem c2_reversion_keeps_stale_label :
    (find_ticker_changes_from_bhavcopies
        [⟨"20200101_NSE.csv", some [⟨"OLD", "EQ", some "I1"⟩]⟩,
         ⟨"20200102_NSE.csv", some [⟨"NEW", "EQ", some "I1"⟩]⟩,
         ⟨"20200103_NSE.csv", some [⟨"OLD", "EQ", some "I1"⟩]⟩]).toOption =
      some ([("I1", ⟨["OLD", "NEW"], "NEW", ⟨2020, 1, 1⟩⟩)],
        [⟨"I1", "OLD", "NEW", ⟨2020, 1, 2⟩⟩]) ∧
    (obsIn "I1" (processOrder
        [⟨"20200101_NSE.csv", some [⟨"OLD", "EQ", some "I1"⟩]⟩,
         ⟨"20200102_NSE.csv", some [⟨"NEW", "EQ", some "I1"⟩]⟩,
         ⟨"20200103_NSE.csv", some [⟨"OLD", "EQ", some "I1"⟩]⟩])).getLast? =
      some (⟨2020, 1, 3⟩, "OLD") ∧
    ("NEW" : String) ≠ "OLD" :=
  ⟨by decide, by decide, by decide⟩

/-- C2 as amended: after processing any prefix `l` of the sorted file sequence
(every run state is `procFiles l ([], [])` for such a prefix), an identifier is
tracked iff it has been observed, and its `last_seen_symbol` equals the label of
its most recent *fresh-label* observation — the most recent observation whose
label was not already in the identifier's all-time label set.  (A reobservation
of a previously seen label, including a reversion, leaves `currentLabel`
unchanged.) -/
theorem c2_current_label_is_last_fresh (l : List BFile) (trk : Tracker)
    (log : List ChangeRec) (h : procFiles l ([], []) = .ok (trk, log)) (i : String) :
    (trkFind trk i = none ↔ obsIn i l = []) ∧
    (∀ sr, trkFind trk i = some sr →
      ∃ o, (freshSubseq [] (obsIn i l)).getLast? = some o ∧
        sr.last_seen_symbol = o.2) := by
  have hmain : trkFind trk i = (obsIn i l).foldl recStep none := by
    have := trkFind_procFiles i l ([], []) (trk, log) h
    simpa [trkFind] using this
  cases hobs : obsIn i l with
  | nil =>
    rw [hobs] at hmain
    constructor
    · rw [hmain]
      simp
    · intro sr hsr
      rw [hmain] at hsr
      cases hsr
  | cons o rest =>
    rw [hobs] at hmain
    rw [List.foldl_cons, show recStep none o = some ⟨[o.2], o.2, o.1⟩ from rfl,
      foldl_recStep_some rest ⟨[o.2], o.2, o.1⟩] at hmain
    have hfr : freshSubseq [] (o :: rest) = o :: freshSubseq [o.2] rest := by
      simp [freshSubseq]
    constructor
    · rw [hmain]
      simp
    · intro sr hsr
      rw [hmain] at hsr
      obtain ⟨o', h1, h2⟩ := lastLabelFold_cons_getLast (freshSubseq [o.2] rest) o
      refine ⟨o', by rw [hfr]; exact h1, ?_⟩
      cases hsr
      exact h2

/-- Witness for the amended C2, at a one-file run. -/
theorem c2_current_label_is_last_fresh_witness :
    procFiles [⟨"20200101_NSE.csv", some [⟨"OLD", "EQ", some "I1"⟩]⟩] ([], []) =
      .ok ([("I1", ⟨["OLD"], "OLD", ⟨2020, 1, 1⟩⟩)], []) ∧
    ((trkFind [("I1", (⟨["OLD"], "OLD", ⟨2020, 1, 1⟩⟩ : SecRec))] "I1" = none ↔
        obsIn "I1" [⟨"20200101_NSE.csv", some [⟨"OLD", "EQ", some "I1"⟩]⟩] = []) ∧
      (∀ sr, trkFind [("I1", (⟨["OLD"], "OLD", ⟨2020, 1, 1⟩⟩ : SecRec))] "I1" =
          some sr →
        ∃ o, (freshSubseq []
            (obsIn "I1" [⟨"20200101_NSE.csv", some [⟨"OLD", "EQ", some "I1"⟩]⟩])).getLast? =
          some o ∧ sr.last_seen_symbol = o.2)) :=
  ⟨by rfl, c2_current_label_is_last_fresh _ _ _ (by rfl) "I1"⟩

/-- C3: a change record is appended at a row exactly when the row has an ISIN
that is already tracked and its stripped symbol is not yet in that identifier's
all-time symbol set (a first observation creates the record silently); the
emitted record carries the old `last_seen_symbol`, the new symbol, and the file
date.  Consequently the OLD/NEW/NEW three-day scenario emits exactly one event
`{I1, OLD → NEW, day 2}`, and the day-3 repeat emits nothing. -/
theorem c3_rename_exactly_on_new_label :
    (∀ (d : Date) (st : Tracker × List ChangeRec) (r : BRow),
      ((stepRow d st r).2 ≠ st.2 ↔
        (∃ i sr, r.ISIN = some i ∧ trkFind st.1 i = some sr ∧
          pyStrip r.SYMBOL ∉ sr.symbols)) ∧
      (∀ i sr, r.ISIN = some i → trkFind st.1 i = some sr →
        pyStrip r.SYMBOL ∉ sr.symbols →
        (stepRow d st r).2 =
          st.2 ++ [⟨i, sr.last_seen_symbol, pyStrip r.SYMBOL, d⟩])) ∧
    (find_ticker_changes_from_bhavcopies
        [⟨"20200101_NSE.csv", some [⟨"OLD", "EQ", some "I1"⟩]⟩,
         ⟨"20200102_NSE.csv", some [⟨"NEW", "EQ", some "I1"⟩]⟩,
         ⟨"20200103_NSE.csv", some [⟨"NEW", "EQ", some "I1"⟩]⟩]).toOption =
      some ([("I1", ⟨["OLD", "NEW"], "NEW", ⟨2020, 1, 1⟩⟩)],
        [⟨"I1", "OLD", "NEW", ⟨2020, 1, 2⟩⟩]) := by
  constructor
  · intro d st r
    constructor
    · unfold stepRow
      cases hr : r.ISIN with
      | none => simp
      | some j =>
        cases hf : trkFind st.1 j with
        | none =>
          simp only [hf]
          constructor
          · intro hne
            exact absurd rfl hne
          · rintro ⟨i, sr, hi, hfi, -⟩
            obtain rfl : j = i := by injection hi
            rw [hf] at hfi
            cases hfi
        | some sr0 =>
          simp only [hf]
          by_cases hmem : pyStrip r.SYMBOL ∈ sr0.symbols
          · rw [if_pos hmem]
            constructor
            · intro hne
              exact absurd rfl hne
            · rintro ⟨i, sr, hi, hfi, hm⟩
              obtain rfl : j = i := by injection hi
              rw [hf] at hfi
              cases hfi
              exact absurd hmem hm
          · rw [if_neg hmem]
            constructor
            · intro _
              exact ⟨j, sr0, rfl, hf, hmem⟩
            · intro _
              simp
    · intro i sr hi hf hmem
      unfold stepRow
      rw [hi]
      simp only [hf]
      rw [if_neg hmem]
  · decide

/-- Witness for C3: applying the emission equation at a concrete tracked state. -/
theorem c3_rename_exactly_on_new_label_witness :
    (stepRow ⟨2020, 1, 2⟩ ([("I1", ⟨["OLD"], "OLD", ⟨2020, 1, 1⟩⟩)], [])
        ⟨"NEW", "EQ", some "I1"⟩).2 =
      [] ++ [⟨"I1", "OLD", "NEW", ⟨2020, 1, 2⟩⟩] :=
  (c3_rename_exactly_on_new_label.1 ⟨2020, 1, 2⟩
      ([("I1", ⟨["OLD"], "OLD", ⟨2020, 1, 1⟩⟩)], []) ⟨"NEW", "EQ", some "I1"⟩).2
    "I1" ⟨["OLD"], "OLD", ⟨2020, 1, 1⟩⟩ rfl rfl (by decide)

/-- C8 counterexample: a snapshot file whose name yields no parseable date token
is not skipped — the un-caught `ValueError` aborts the entire scan. -/
theorem c8_parse_failure_is_fatal :
    find_ticker_changes_from_bhavcopies
      [⟨"20200101_NSE.csv", some []⟩, ⟨"badname.csv", some []⟩] = .error () := by
  rfl

/-- C8 as amended: a file whose *read* fails with one of the caught exceptions
(missing/empty file) is skipped with a warning and processing continues, but a
file whose *name* does not yield a parseable date token makes the whole scan
fail: the scan succeeds iff every discovered `.csv` file name parses. -/
theorem c8_skip_reads_abort_names :
    (∀ (l1 l2 : List BFile) (name : String) (d : Date)
        (st : Tracker × List ChangeRec),
      fileDate name = some d →
      procFiles (l1 ++ ⟨name, none⟩ :: l2) st = procFiles (l1 ++ l2) st) ∧
    (∀ (l : List BFile) (st : Tracker × List ChangeRec),
      procFiles l st = .error () ↔ ∃ f ∈ l, fileDate f.name = none) := by
  constructor
  · intro l1
    induction l1 with
    | nil =>
      intro l2 name d st hd
      simp [procFiles, hd]
    | cons f l1 ih =>
      intro l2 name d st hd
      simp only [List.cons_append, procFiles]
      cases hf : fileDate f.name with
      | none => rfl
      | some d' =>
        cases hdata : f.data with
        | none => exact ih l2 name d st hd
        | some rows => exact ih l2 name d (procRows d' st rows) hd
  · intro l
    induction l with
    | nil =>
      intro st
      simp [procFiles]
    | cons f fs ih =>
      intro st
      unfold procFiles
      cases hf : fileDate f.name with
      | none =>
        simp only [hf]
        constructor
        · intro _
          exact ⟨f, List.mem_cons_self f fs, hf⟩
        · intro _
          trivial
      | some d =>
        simp only [hf]
        cases hdata : f.data with
        | none =>
          simp only [hdata]
          rw [ih st]
          constructor
          · rintro ⟨g, hg, hgd⟩
            exact ⟨g, List.mem_cons_of_mem f hg, hgd⟩
          · rintro ⟨g, hg, hgd⟩
            rcases List.mem_cons.mp hg with rfl | hg
            · rw [hf] at hgd
              cases hgd
            · exact ⟨g, hg, hgd⟩
        | some rows =>
          simp only [hdata]
          rw [ih (procRows d st rows)]
          constructor
          · rintro ⟨g, hg, hgd⟩
            exact ⟨g, List.mem_cons_of_mem f hg, hgd⟩
          · rintro ⟨g, hg, hgd⟩
            rcases List.mem_cons.mp hg with rfl | hg
            · rw [hf] at hgd
              cases hgd
            · exact ⟨g, hg, hgd⟩

/-- Witness for the amended C8: an unreadable (but well-named) file is skipped;
a run whose only file has an unparseable name errors. -/
theorem c8_skip_reads_abort_names_witness :
    procFiles [⟨"20200107_NSE.csv", (none : Option (List BRow))⟩] ([], []) =
      procFiles [] ([], []) ∧
    (procFiles [⟨"oops.csv", some []⟩] ([], []) = .error () ↔
      ∃ f ∈ [(⟨"oops.csv", some []⟩ : BFile)], fileDate f.name = none) :=
  ⟨c8_skip_reads_abort_names.1 [] [] "20200107_NSE.csv" ⟨2020, 1, 7⟩ ([], [])
      (by decide),
    c8_skip_reads_abort_names.2 [⟨"oops.csv", some []⟩] ([], [])⟩

/-- C9 counterexample: two parseable files in sibling directories are processed
in path order `a/… , b/…`, i.e. the file dated 2020-01-02 strictly before the
file dated 2020-01-01 — not in chronological order of the derived dates. -/
theorem c9_path_order_beats_dates :
    (processOrder [⟨"a/20200102_NSE.csv", some []⟩,
        ⟨"b/20200101_NSE.csv", some []⟩]).map (fun f => fileDate f.name) =
      [some ⟨2020, 1, 2⟩, some ⟨2020, 1, 1⟩] ∧
    toOrd ⟨2020, 1, 1⟩ < toOrd ⟨2020, 1, 2⟩ :=
  ⟨by decide, by decide⟩

/-- C9 as amended: the detector processes the discovered `.csv` files in
ascending code-point lexicographic order of their full paths (Python's
`list.sort()`), which is what the scan actually iterates over; this coincides
with chronological order of the derived dates only when path order and date
order agree. -/
theorem c9_lexicographic_processing (files : List BFile) :
    List.Sorted fileLE (processOrder files) ∧
    (processOrder files).Perm (files.filter (fun f => isCsvName f.name)) ∧
    find_ticker_changes_from_bhavcopies files = procFiles (processOrder files) ([], []) :=
  ⟨List.sorted_insertionSort fileLE _, List.perm_insertionSort fileLE _, rfl⟩

end Bhav
